import Mathlib

/-!
Verification of the identity matching and scoring engine of
`aadhar-verify` (`src/utils.py`).

The pure matching core of `utils.py` is embedded shallowly:

* `normalize_text`, `name_match`, `extract_pincode`, `normalize_address`,
  `similarity_ratio`, `address_match`, `calculate_match_score` are translated
  function by function from the Python source.
* Python strings are modelled as `String` / `List Char`.  Character classes
  are modelled exactly: `string.punctuation` is the four ASCII ranges
  33-47, 58-64, 91-96, 123-126; the whitespace class of `re`'s `\s` (and of
  `str.split()`) is the fixed set of 29 code points enumerated in `isPyWs`.
  `str.lower()` is modelled by its ASCII case mapping (non-ASCII case
  mappings are modelled as the identity).
* `difflib.SequenceMatcher` (CPython, `isjunk = None`) is embedded in full:
  the `b2j` index with the autojunk rule for sequences of length at least
  200, the `find_longest_match` dynamic programming loop with its two
  non-junk extension phases (with `isjunk = None` the junk set `bjunk` is
  empty, so the two junk extension loops of the original can never fire and
  are omitted), and the recursive block decomposition of
  `get_matching_blocks` (the queue in CPython explores exactly the same
  rectangles; the final merge of adjacent blocks does not change the total
  matched count, which is all `ratio` uses).
* Python float arithmetic on scores is modelled by exact rational
  arithmetic over `ℚ`; scores such as `0.4 * pincode_score + ...` are the
  exact rational values of the formulas in the source.
* The I/O shell of `calculate_match_score` (reading the Excel file, checking
  for its required columns, exception handling) is glue around the pure
  resolver loop; the reference table is modelled as the list of its rows.
-/

set_option autoImplicit false

namespace AadharVerify

/-- Python `string.punctuation`: the 32 ASCII punctuation characters, i.e.
the code point ranges 33-47, 58-64, 91-96 and 123-126. -/
def isPyPunct (c : Char) : Bool :=
  (33 ≤ c.toNat && c.toNat ≤ 47) || (58 ≤ c.toNat && c.toNat ≤ 64) ||
    (91 ≤ c.toNat && c.toNat ≤ 96) || (123 ≤ c.toNat && c.toNat ≤ 126)

/-- The character class matched by Python's `re` pattern `\s` on `str`
(equally the separator set of `str.split()`): exactly these 29 code
points. -/
def isPyWs (c : Char) : Bool :=
  [9, 10, 11, 12, 13, 28, 29, 30, 31, 32, 133, 160, 5760,
    8192, 8193, 8194, 8195, 8196, 8197, 8198, 8199, 8200, 8201, 8202,
    8232, 8233, 8239, 8287, 12288].contains c.toNat

/-- Python `str.lower()` restricted to its ASCII case mapping
(`'A'..'Z'` map to `'a'..'z'`); other characters are left unchanged. -/
def pyLower (c : Char) : Char :=
  if 65 ≤ c.toNat && c.toNat ≤ 90 then Char.ofNat (c.toNat + 32) else c

/-- Closes the run accumulated by `runsOfCore`: a nonempty current run is
emitted in front of the finished runs. -/
def closeRun (p : List Char × List (List Char)) : List (List Char) :=
  if p.1.isEmpty then p.2 else p.1 :: p.2

/-- Helper for `runsOf`: returns the run of `q`-characters at the front of
the list together with the maximal runs of the remainder. -/
def runsOfCore (q : Char → Bool) : List Char → List Char × List (List Char)
  | [] => ([], [])
  | c :: rest =>
    let p := runsOfCore q rest
    if q c then (c :: p.1, p.2) else ([], closeRun p)

/-- The maximal runs of characters satisfying `q`, in order; characters not
satisfying `q` act as separators and are dropped.  `runsOf (!isPyWs ·)`
is Python's `str.split()`; `runsOf Char.isDigit` lists the maximal digit
runs of a string. -/
def runsOf (q : Char → Bool) (l : List Char) : List (List Char) :=
  closeRun (runsOfCore q l)

/-- Python `str.split()` (split on runs of whitespace, dropping empty
pieces). -/
def pySplit (l : List Char) : List (List Char) :=
  runsOf (fun c => !isPyWs c) l

/-- Join tokens with single spaces (Python `' '.join(...)`). -/
def joinSp : List (List Char) → List Char
  | [] => []
  | [t] => t
  | t :: t' :: ts => t ++ ' ' :: joinSp (t' :: ts)

/-- `normalize_text` (`src/utils.py:80-90`): remove all characters of
`string.punctuation`, lower-case, collapse whitespace runs to single
spaces and trim.  The composition `re.sub(r'\s+', ' ', text).strip()` is
exactly "join the whitespace-separated tokens with single spaces", which is
how the collapsing step is written here; the `if not text` guard of the
source is subsumed because the empty string maps to itself. -/
def normalize_text (s : String) : String :=
  String.mk (joinSp (pySplit ((s.data.filter (fun c => !isPyPunct c)).map pyLower)))

/-- `ADDRESS_TERMS_TO_IGNORE` (`src/utils.py:15-19`). -/
def ADDRESS_TERMS_TO_IGNORE : List String :=
  ["road", "street", "lane", "marg", "nagar", "colony", "township",
   "apartment", "flat", "sector", "block", "phase", "district", "area",
   "near", "behind", "opposite", "beside", "next to", "across from"]

/-- `normalize_address` (`src/utils.py:174-192`): lower-case, remove
punctuation, collapse whitespace, then drop every token whose lower-cased
form is one of `ADDRESS_TERMS_TO_IGNORE`, and re-join with single
spaces. -/
def normalize_address (s : String) : String :=
  let words := pySplit ((s.data.map pyLower).filter (fun c => !isPyPunct c))
  let filtered :=
    words.filter (fun w => !(ADDRESS_TERMS_TO_IGNORE.contains (String.mk (w.map pyLower))))
  String.mk (joinSp filtered)

/-- One step of the loop body of `check_abbreviation`
(`src/utils.py:118-130`): the pair of tokens at one position is acceptable
when one of them has length 1 and starts the other (Python
`p2.startswith(p1)` for a length-1 `p1` is `p2.take 1 == p1`), or the
tokens are equal. -/
def abbrevPairOk (p1 p2 : List Char) : Bool :=
  if p1.length == 1 && p2.take 1 == p1 then true
  else if p2.length == 1 && p1.take 1 == p2 then true
  else p1 == p2

/-- `check_abbreviation` (`src/utils.py:118-130`): equal number of tokens
and every aligned pair acceptable. -/
def check_abbreviation (parts1 parts2 : List (List Char)) : Bool :=
  (parts1.length == parts2.length) && (parts1.zip parts2).all fun p => abbrevPairOk p.1 p.2

/-- `check_without_middle` (`src/utils.py:136-141`): both sequences have at
least two tokens and agree on the first and last token. -/
def check_without_middle (parts1 parts2 : List (List Char)) : Bool :=
  if parts1.length < 2 || parts2.length < 2 then false
  else (parts1.headD [] == parts2.headD []) && (parts1.getLastD [] == parts2.getLastD [])

/-- Lexicographic comparison of strings by code point, Python's `<=` on
`str`; used only through `pySorted` to model `sorted(...)`. -/
def lexLe : List Char → List Char → Bool
  | [], _ => true
  | _ :: _, [] => false
  | a :: as, b :: bs =>
    if a.toNat < b.toNat then true
    else if b.toNat < a.toNat then false
    else lexLe as bs

/-- Insertion step of `pySorted`. -/
def insertSorted (x : List Char) : List (List Char) → List (List Char)
  | [] => [x]
  | y :: ys => if lexLe x y then x :: y :: ys else y :: insertSorted x ys

/-- Python `sorted(...)` on a list of strings (insertion sort under the
total lexicographic order; `name_match` only compares the sorted lists for
equality, for which any correct sort is interchangeable). -/
def pySorted (l : List (List Char)) : List (List Char) :=
  l.foldr insertSorted []

/-- `name_match` (`src/utils.py:92-161`): the ordered rule chain —
empty-input guard on the raw inputs, exact match of the normalized names,
positional abbreviation (both directions), middle-name elision (both
directions), single-token containment, equality of sorted token lists, and
sub/superset containment. -/
def name_match (input_name extracted_name : String) : Bool :=
  if input_name == "" || extracted_name == "" then false
  else
    let inp := normalize_text input_name
    let ext := normalize_text extracted_name
    if inp == ext then true
    else
      let input_parts := pySplit inp.data
      let extracted_parts := pySplit ext.data
      if check_abbreviation input_parts extracted_parts ||
          check_abbreviation extracted_parts input_parts then true
      else if (decide (input_parts.length > 2) && check_without_middle input_parts extracted_parts) ||
          (decide (extracted_parts.length > 2) && check_without_middle extracted_parts input_parts) then
        true
      else if input_parts.length == 1 && extracted_parts.contains (input_parts.headD []) then true
      else if extracted_parts.length == 1 && input_parts.contains (extracted_parts.headD []) then true
      else if pySorted input_parts == pySorted extracted_parts then true
      else if input_parts.all (fun p => extracted_parts.contains p) ||
          extracted_parts.all (fun p => input_parts.contains p) then true
      else false

/-- The leftmost window of six consecutive decimal digits, if any: the
semantics of `re.search(r'(\d{6})', s)`, which matches at the first
position where six consecutive digits start (also inside a longer digit
run).  `Char.isDigit` is ASCII `0`-`9`; non-ASCII decimal digits (which
Python's `\d` would also accept) are modelled as non-digits. -/
def sixDigitWindow : List Char → Option (List Char)
  | [] => none
  | c :: rest =>
    if ((c :: rest).take 6).length == 6 && ((c :: rest).take 6).all Char.isDigit then
      some ((c :: rest).take 6)
    else sixDigitWindow rest

/-- `extract_pincode` (`src/utils.py:163-172`): `address.replace(" ", "")`
removes exactly the space character `U+0020` (no other whitespace), then the
first six-consecutive-digit window is returned, or `""` when there is
none.  The `if not address` guard of the source is subsumed: the empty
string has no digit window. -/
def extract_pincode (s : String) : String :=
  match sixDigitWindow (s.data.filter fun c => c != ' ') with
  | some w => String.mk w
  | none => ""

/-! ### `difflib.SequenceMatcher` (CPython, `isjunk = None`, `autojunk = True`)

`similarity_ratio` calls `SequenceMatcher(None, str1, str2).ratio()`.  The
algorithm below is the CPython implementation, specialized to
`isjunk = None`: the junk set `bjunk` is then empty, so `isbjunk` is
constantly false and the two junk-extension loops of `find_longest_match`
never fire (they are omitted here).  The autojunk rule still applies: for a
second sequence of length at least 200, characters occurring more than
`len(b) // 100 + 1` times are dropped from the `b2j` index (but are *not*
junk, so the extension loops may still traverse them). -/

/-- Number of occurrences of `c` in `b`. -/
def countOcc (b : List Char) (c : Char) : Nat :=
  (b.filter fun x => x == c).length

/-- The indices of `c` in `b`, in increasing order (the `b2j` lists are
built by enumerating `b` left to right). -/
def indicesOf (b : List Char) (c : Char) : List Nat :=
  (List.range b.length).filter fun i => b.getD i ' ' == c

/-- The autojunk rule of `SequenceMatcher.__chain_b`. -/
def isPopular (b : List Char) (c : Char) : Bool :=
  decide (200 ≤ b.length) && decide (b.length / 100 + 1 < countOcc b c)

/-- The `b2j` occurrence index of `SequenceMatcher`, with popular
characters removed. -/
def b2j (b : List Char) (c : Char) : List Nat :=
  if isPopular b c then [] else indicesOf b c

/-- `j2len.get(j, 0)`: association-list lookup with default `0`. -/
def lookupJ (l : List (Nat × Nat)) (j : Nat) : Nat :=
  match l.find? (fun p => p.1 == j) with
  | some p => p.2
  | none => 0

/-- The inner loop of `find_longest_match` over the occurrence list
`js = b2j[a[i]]` (already restricted to `blo ≤ j < bhi`): builds
`newj2len` and updates the running best.  `k = j2len.get(j-1, 0) + 1`
reads the *previous* row (`j2lenget` in CPython); for `j = 0` Python reads
key `-1`, which is absent, hence the explicit `0`. -/
def innerLoop (i : Nat) : List Nat → List (Nat × Nat) → List (Nat × Nat) →
    Nat × Nat × Nat → List (Nat × Nat) × (Nat × Nat × Nat)
  | [], _, new, best => (new, best)
  | j :: js, old, new, best =>
    let k := (if j == 0 then 0 else lookupJ old (j - 1)) + 1
    let best' := if best.2.2 < k then (i + 1 - k, j + 1 - k, k) else best
    innerLoop i js old ((j, k) :: new) best'

/-- The outer loop of `find_longest_match` over `i in range(alo, ahi)`
(the index list is `List.range' alo (ahi - alo)`).  `continue` on
`j < blo` is the `filter`, `break` on `j >= bhi` is the `takeWhile` (the
occurrence lists are increasing). -/
def outerLoop (a b : List Char) (blo bhi : Nat) :
    List Nat → List (Nat × Nat) → Nat × Nat × Nat → Nat × Nat × Nat
  | [], _, best => best
  | i :: is, j2len, best =>
    let js := ((b2j b (a.getD i ' ')).filter fun j => decide (blo ≤ j)).takeWhile
      fun j => decide (j < bhi)
    let p := innerLoop i js j2len [] best
    outerLoop a b blo bhi is p.1 p.2

/-- First extension loop of `find_longest_match`: grow the best block
backwards while the preceding characters agree (recursion is structural in
`besti`, which strictly decreases; `isbjunk` is constantly false). -/
def extendBack (a b : List Char) (alo blo : Nat) : Nat → Nat → Nat → Nat × Nat × Nat
  | 0, bj, k => (0, bj, k)
  | bi + 1, bj, k =>
    if decide (alo < bi + 1) && decide (blo < bj) &&
        (a.getD bi ' ' == b.getD (bj - 1) ' ') then
      extendBack a b alo blo bi (bj - 1) (k + 1)
    else (bi + 1, bj, k)

/-- Second extension loop of `find_longest_match`, on explicit fuel: grow
the block forwards while in range and the characters agree.  When the fuel
is `ahi - (besti + bestsize)` it never runs out before the loop guard
fails, so the function is exactly the `while` loop of the source. -/
def extendFwdAux (a b : List Char) (ahi bhi bi bj : Nat) : Nat → Nat → Nat
  | 0, k => k
  | fuel + 1, k =>
    if decide (bi + k < ahi) && decide (bj + k < bhi) &&
        (a.getD (bi + k) ' ' == b.getD (bj + k) ' ') then
      extendFwdAux a b ahi bhi bi bj fuel (k + 1)
    else k

/-- Forward extension with sufficient fuel. -/
def extendFwd (a b : List Char) (ahi bhi bi bj k : Nat) : Nat :=
  extendFwdAux a b ahi bhi bi bj (ahi - (bi + k)) k

/-- `SequenceMatcher.find_longest_match` on `a[alo:ahi]` / `b[blo:bhi]`
(`isjunk = None`): dynamic-programming scan, then backward and forward
non-junk extension of the best block. -/
def find_longest_match (a b : List Char) (alo ahi blo bhi : Nat) : Nat × Nat × Nat :=
  let best := outerLoop a b blo bhi (List.range' alo (ahi - alo)) [] (alo, blo, 0)
  let q := extendBack a b alo blo best.1 best.2.1 best.2.2
  (q.1, q.2.1, extendFwd a b ahi bhi q.1 q.2.1 q.2.2)

/-- Total size of the matching blocks of `get_matching_blocks` on the
rectangle `a[alo:ahi] × b[blo:bhi]`, on explicit fuel.  CPython's queue
explores exactly this recursion tree (the order of the queue and the final
merge of adjacent blocks do not change the total size, which is all
`ratio()` uses).  Each recursive call strictly shrinks
`(ahi - alo) + (bhi - blo)`, so fuel `ahi + bhi` (total at the top call)
always suffices and the fuel case never fires on the calls made here. -/
def matchTotalAux (a b : List Char) : Nat → Nat → Nat → Nat → Nat → Nat
  | 0, _, _, _, _ => 0
  | fuel + 1, alo, ahi, blo, bhi =>
    let m := find_longest_match a b alo ahi blo bhi
    let i := m.1
    let j := m.2.1
    let k := m.2.2
    if k == 0 then 0
    else
      k + (if decide (alo < i) && decide (blo < j) then matchTotalAux a b fuel alo i blo j else 0) +
        (if decide (i + k < ahi) && decide (j + k < bhi) then
          matchTotalAux a b fuel (i + k) ahi (j + k) bhi
        else 0)

/-- `sum(triple[-1] for triple in get_matching_blocks())`: the number `M`
of matched characters between `a` and `b`. -/
def matchTotal (a b : List Char) : Nat :=
  matchTotalAux a b (a.length + b.length + 1) 0 a.length 0 b.length

/-- `similarity_ratio` (`src/utils.py:194-198`): `0` when either input is
empty, otherwise `SequenceMatcher(None, str1, str2).ratio() * 100`, where
`ratio()` is `2.0 * M / T` for `T` the sum of the lengths.  Python's float
arithmetic is modelled by exact rational arithmetic. -/
def similarity_ratio (str1 str2 : String) : ℚ :=
  if str1 == "" || str2 == "" then 0
  else 2 * (matchTotal str1.data str2.data : ℚ) /
    ((str1.data.length : ℚ) + (str2.data.length : ℚ)) * 100

/-- `address_match` (`src/utils.py:200-246`): pincode comparison, overall
similarity of the normalized addresses, overlap of the significant
(longer-than-3) reference tokens, and the weighted threshold decision.
Python list truthiness (`if significant_parts:`) is nonemptiness; float
arithmetic is modelled by exact rational arithmetic. -/
def address_match (input_address extracted_address : String) : Bool :=
  if input_address == "" || extracted_address == "" then false
  else
    let input_pincode := extract_pincode input_address
    let extracted_pincode := extract_pincode extracted_address
    let pincode_score : ℚ :=
      if input_pincode != "" && extracted_pincode != "" && input_pincode == extracted_pincode then
        100
      else 0
    let norm_input := normalize_address input_address
    let norm_extracted := normalize_address extracted_address
    let similarity_score := similarity_ratio norm_input norm_extracted
    let input_parts := pySplit norm_input.data
    let extracted_parts := pySplit norm_extracted.data
    let significant_parts := input_parts.filter fun part => decide (3 < part.length)
    let parts_score : ℚ :=
      if significant_parts.isEmpty then 0
      else ((significant_parts.filter fun part => extracted_parts.contains part).length : ℚ) /
        (significant_parts.length : ℚ) * 100
    let final_score : ℚ :=
      if 0 < pincode_score then
        0.4 * pincode_score + 0.4 * similarity_score + 0.2 * parts_score
      else 0.6 * similarity_score + 0.4 * parts_score
    decide (70 ≤ final_score)

/-- The extracted field set produced by `extract_text`: the `name` / `uid` /
`address` dictionary. -/
structure ExtractedData where
  name : String
  uid : String
  address : String
deriving DecidableEq

/-- One row of the reference Excel table, with its required columns
`UID`, `Name`, `Address` (`str(row["UID"])` is modelled as the string
field `UID`). -/
structure RefRecord where
  UID : String
  Name : String
  Address : String
deriving DecidableEq

/-- `uid.replace(" ", "")`: removes exactly the space character `U+0020`
(and no other whitespace). -/
def stripSpaces (s : String) : String :=
  String.mk (s.data.filter fun c => c != ' ')

/-- The row loop of `calculate_match_score` (`src/utils.py:272-296`): scan
the rows in order; on the first row whose space-stripped `UID` equals the
space-stripped extracted uid, return the combined score; `0` after a full
scan without a hit. -/
def resolveScore (extracted : ExtractedData) (euid : String) : List RefRecord → ℚ
  | [] => 0
  | row :: rest =>
    if stripSpaces row.UID == euid then
      let name_score : ℚ := if name_match row.Name extracted.name then 100 else 0
      let address_score : ℚ := if address_match row.Address extracted.address then 100 else 0
      (name_score + address_score) / 2
    else resolveScore extracted euid rest

/-- `calculate_match_score` (`src/utils.py:248-299`).  The surrounding I/O
shell (reading the Excel file, checking the required keys and columns,
`except` handler) is glue modelled by passing the list of reference rows
directly; the `if not extracted_data["uid"]` guard and the resolver loop
are the engine translated here. -/
def calculate_match_score (extracted : ExtractedData) (records : List RefRecord) : ℚ :=
  if extracted.uid == "" then 0
  else resolveScore extracted (stripSpaces extracted.uid) records

/-! ### Claim-side (specification) definitions

These definitions follow the wording of the specification / claims rather
than the source; each claim theorem compares the source embedding above
against them. -/

/-- Removing *every* whitespace character (spaces, tabs, etc.), as claims
C1 and C5 word the identifier comparison. -/
def stripAllWs (s : String) : String :=
  String.mk (s.data.filter fun c => !isPyWs c)

/-- The resolver/aggregator as described by claim C1, parameterized by the
identifier-stripping function: score `0` when the extracted identifier is
empty or no record matches, otherwise the first record (in sequence order)
whose stripped identifier equals the stripped extracted identifier is
scored as `(name_score + address_score) / 2`. -/
def specResolverScore (stripId : String → String) (extracted : ExtractedData)
    (records : List RefRecord) : ℚ :=
  if extracted.uid = "" then 0
  else
    match records.find? (fun row => stripId row.UID == stripId extracted.uid) with
    | none => 0
    | some row =>
      let name_score : ℚ := if name_match row.Name extracted.name then 100 else 0
      let address_score : ℚ := if address_match row.Address extracted.address then 100 else 0
      (name_score + address_score) / 2

/-- `extract_pincode` as claim C4 words it: remove whitespace, return the
first *maximal* digit run of length exactly 6, else `""` (so a run of any
other length is never a source of the result). -/
def specPincodeExact (s : String) : String :=
  match (runsOf Char.isDigit (s.data.filter fun c => !isPyWs c)).find? (fun r => r.length == 6) with
  | some r => String.mk r
  | none => ""

/-- `extract_pincode` as amended: remove space characters, return the
first 6 digits of the first maximal digit run of length at least 6, else
`""`. -/
def specPincodeAmended (s : String) : String :=
  match (runsOf Char.isDigit (s.data.filter fun c => c != ' ')).find? (fun r => decide (6 ≤ r.length)) with
  | some r => String.mk (r.take 6)
  | none => ""

/-- The pincode sub-score of §4.6 step 1: `100` if both extracted pincodes
are non-empty and equal, else `0`. -/
def specPincodeScore (ref ext : String) : ℚ :=
  if extract_pincode ref ≠ "" ∧ extract_pincode ext ≠ "" ∧ extract_pincode ref = extract_pincode ext
  then 100 else 0

/-- The similarity sub-score of §4.6 step 2, on the normalized addresses. -/
def specSimilarityScore (ref ext : String) : ℚ :=
  similarity_ratio (normalize_address ref) (normalize_address ext)

/-- The token-overlap sub-score of §4.6 step 3: the percentage of
significant (length > 3) normalized reference tokens that appear among the
normalized extracted tokens; `0` if there are no significant tokens. -/
def specPartsScore (ref ext : String) : ℚ :=
  let sig := (pySplit (normalize_address ref).data).filter fun t => decide (3 < t.length)
  if sig = [] then 0
  else ((sig.filter fun t => (pySplit (normalize_address ext).data).contains t).length : ℚ) /
    (sig.length : ℚ) * 100

/-- The weighted final address score of §4.6 step 4. -/
def specFinalScore (ref ext : String) : ℚ :=
  if 0 < specPincodeScore ref ext then
    0.4 * specPincodeScore ref ext + 0.4 * specSimilarityScore ref ext +
      0.2 * specPartsScore ref ext
  else 0.6 * specSimilarityScore ref ext + 0.4 * specPartsScore ref ext

/-! ### The matcher on two copies of the same string

`find_longest_match x x 0 n 0 n` returns the full diagonal block
`(0, 0, n)`: the dynamic-programming loop only ever installs diagonal
bests (off-diagonal candidates never beat the diagonal run already
recorded), and the two extension loops then grow a diagonal best to the
whole string.  `diag x i` is the DP value at the diagonal cell `(i, i)`:
the length of the run of non-popular characters ending at `i`. -/

/-- The diagonal DP value at `(i, i)` for the pair `(x, x)`: the length of
the maximal run of non-popular characters ending at position `i`. -/
def diag (x : List Char) : Nat → Nat
  | 0 => if isPopular x (x.getD 0 ' ') then 0 else 1
  | i + 1 => if isPopular x (x.getD (i + 1) ' ') then 0 else diag x i + 1

/-- `dpred x j` is `diag x (j-1)`, with `0` at `j = 0` (the `j2len.get(j-1, 0)`
read at the left edge). -/
def dpred (x : List Char) : Nat → Nat
  | 0 => 0
  | t + 1 => diag x t

/-- The joint output invariant of the DP loops on `(x, x)` after the
iterations up to and including row `i`: the best block is diagonal and at
least as long as every diagonal run seen so far, it fits inside the
string, and the new `j2len` row is bounded by the diagonal runs and exact
at the diagonal key `i`. -/
def InnerOut (x : List Char) (i : Nat) (r : List (Nat × Nat) × Nat × Nat × Nat) : Prop :=
  r.2.1 = r.2.2.1 ∧
    (∀ j, j < i → diag x j ≤ r.2.2.2) ∧
    r.2.1 + r.2.2.2 ≤ x.length ∧
    (∀ j, lookupJ r.1 j ≤ diag x j) ∧
    (∀ j, lookupJ r.1 j ≤ diag x i) ∧
    diag x i ≤ r.2.2.2 ∧
    lookupJ r.1 i = diag x i

/-! ### Helper lemmas for `name_match` -/

theorem abbrevPairOk_of (p q : List Char)
    (h : p = q ∨ (p.length = 1 ∧ p <+: q) ∨ (q.length = 1 ∧ q <+: p)) :
    abbrevPairOk p q = true := by
  unfold abbrevPairOk
  split
  · rfl
  · split
    · rfl
    · rename_i hc1 hc2
      rcases h with h | ⟨hl, hpre⟩ | ⟨hl, hpre⟩
      · simp [h]
      · have ht : q.take 1 = p := by
          obtain ⟨r, rfl⟩ := hpre
          rw [List.take_append_of_le_length (by omega), ← hl, List.take_length]
        exact absurd (by simp [hl, ht]) hc1
      · have ht : p.take 1 = q := by
          obtain ⟨r, rfl⟩ := hpre
          rw [List.take_append_of_le_length (by omega), ← hl, List.take_length]
        exact absurd (by simp [hl, ht]) hc2

theorem check_abbreviation_of (t1 t2 : List (List Char))
    (hlen : t1.length = t2.length)
    (hpairs : ∀ p ∈ t1.zip t2,
      p.1 = p.2 ∨ (p.1.length = 1 ∧ p.1 <+: p.2) ∨ (p.2.length = 1 ∧ p.2 <+: p.1)) :
    check_abbreviation t1 t2 = true := by
  unfold check_abbreviation
  simp only [Bool.and_eq_true, beq_iff_eq, List.all_eq_true]
  exact ⟨hlen, fun p hp => abbrevPairOk_of p.1 p.2 (hpairs p hp)⟩

/-- Claim C7: for non-empty names whose normalized token sequences have
equal length and are positionwise equal-or-single-letter-abbreviated (in
either direction), `name_match` returns `true`. -/
theorem nameMatch_positional_abbreviation (n1 n2 : String) (h1 : n1 ≠ "") (h2 : n2 ≠ "")
    (hlen : (pySplit (normalize_text n1).data).length = (pySplit (normalize_text n2).data).length)
    (hpairs : ∀ p ∈ (pySplit (normalize_text n1).data).zip (pySplit (normalize_text n2).data),
      p.1 = p.2 ∨ (p.1.length = 1 ∧ p.1 <+: p.2) ∨ (p.2.length = 1 ∧ p.2 <+: p.1)) :
    name_match n1 n2 = true := by
  have hab := check_abbreviation_of _ _ hlen hpairs
  have hg : (n1 == "" || n2 == "") = false := by
    simp [h1, h2]
  unfold name_match
  rw [hg]
  simp only [Bool.false_eq_true, if_false]
  by_cases hx : normalize_text n1 == normalize_text n2
  · simp [hx]
  · simp [hx, hab]

/-- Witness for C7 at the spec's own example: `"John Smith"` vs
`"J Smith"`. -/
theorem nameMatch_positional_abbreviation_witness :
    name_match "John Smith" "J Smith" = true := by
  refine nameMatch_positional_abbreviation "John Smith" "J Smith" (by decide) (by decide) (by decide) ?_
  intro p hp
  fin_cases hp
  · right; right
    exact ⟨by decide, ⟨['o', 'h', 'n'], by decide⟩⟩
  · left; decide

/-- Claim C10: two raw-nonempty names that both normalize to the empty
string satisfy the exact-match rule on their normalized forms, so
`name_match` returns `true`. -/
theorem nameMatch_empty_normalized (a b : String) (ha : a ≠ "") (hb : b ≠ "")
    (hna : normalize_text a = "") (hnb : normalize_text b = "") :
    name_match a b = true := by
  have hg : (a == "" || b == "") = false := by simp [ha, hb]
  unfold name_match
  rw [hg]
  simp [hna, hnb]

/-- Witness for C10: `"!!!"` and `"???"` are punctuation-only names. -/
theorem nameMatch_empty_normalized_witness :
    name_match "!!!" "???" = true :=
  nameMatch_empty_normalized "!!!" "???" (by decide) (by decide) (by decide) (by decide)

/-- Claim C6: `address_match` returns `true` exactly when both addresses
are non-empty and the weighted final score of §4.6 (computed from the
pincode, similarity and token-overlap sub-scores) is at least 70. -/
theorem addressMatch_weighted_threshold (ref ext : String) :
    address_match ref ext = true ↔ ref ≠ "" ∧ ext ≠ "" ∧ 70 ≤ specFinalScore ref ext := by
  unfold address_match specFinalScore specPincodeScore specSimilarityScore specPartsScore
  by_cases h1 : ref = ""
  · simp [h1]
  · by_cases h2 : ext = ""
    · simp [h2]
    · have hg : (ref == "" || ext == "") = false := by simp [h1, h2]
      rw [hg]
      simp only [Bool.false_eq_true, if_false, Bool.and_eq_true, bne_iff_ne, beq_iff_eq,
        ne_eq, List.isEmpty_iff, decide_eq_true_eq, and_assoc]
      constructor
      · intro h
        exact ⟨h1, h2, h⟩
      · intro h
        exact h.2.2

/-! ### The record resolver / score aggregator -/

theorem resolveScore_eq_find (E : ExtractedData) (euid : String) (rs : List RefRecord) :
    resolveScore E euid rs =
      match rs.find? (fun row => stripSpaces row.UID == euid) with
      | none => 0
      | some row => ((if name_match row.Name E.name then (100 : ℚ) else 0) +
          (if address_match row.Address E.address then (100 : ℚ) else 0)) / 2 := by
  induction rs with
  | nil => rfl
  | cons r rest ih =>
    by_cases h : stripSpaces r.UID == euid
    · simp [resolveScore, List.find?_cons_of_pos, h]
    · simp [resolveScore, List.find?_cons_of_neg, h, ih]

/-- Claim C1 (amended: identifiers are compared after removing space
characters `U+0020`, not all whitespace): `calculate_match_score` equals
the first-match resolver description, and its value is always one of
`0`, `50`, `100`. -/
theorem calculateMatchScore_spec (E : ExtractedData) (rs : List RefRecord) :
    calculate_match_score E rs = specResolverScore stripSpaces E rs ∧
      (calculate_match_score E rs = 0 ∨ calculate_match_score E rs = 50 ∨
        calculate_match_score E rs = 100) := by
  have heq : calculate_match_score E rs = specResolverScore stripSpaces E rs := by
    unfold calculate_match_score specResolverScore
    by_cases h : E.uid = ""
    · simp [h]
    · have hg : (E.uid == "") = false := by simp [h]
      rw [hg]
      simp only [Bool.false_eq_true, if_false, if_neg h]
      rw [resolveScore_eq_find]
  refine ⟨heq, ?_⟩
  rw [heq]
  unfold specResolverScore
  by_cases h : E.uid = ""
  · simp [h]
  · simp only [if_neg h]
    cases hf : rs.find? (fun row => stripSpaces row.UID == stripSpaces E.uid) with
    | none => simp
    | some row =>
      by_cases hn : name_match row.Name E.name <;>
        by_cases ha : address_match row.Address E.address <;>
          simp [hn, ha] <;> norm_num

/-- Counterexample to C1 as stated: with the extracted identifier
`"12\t34"` (a tab inside) and the reference identifier `"1234"`, the
identifiers are equal after removing every whitespace character, so the
claimed description yields the first-match score `50`; the code strips
only spaces, finds no matching record, and returns `0`. -/
theorem calculateMatchScore_ws_counterexample :
    calculate_match_score ⟨"a", "12\t34", ""⟩ [⟨"1234", "a", ""⟩] = 0 ∧
      specResolverScore stripAllWs ⟨"a", "12\t34", ""⟩ [⟨"1234", "a", ""⟩] = 50 := by
  constructor
  · rfl
  · have hfind : List.find? (fun row => stripAllWs row.UID == stripAllWs "12\t34")
        [(⟨"1234", "a", ""⟩ : RefRecord)] = some ⟨"1234", "a", ""⟩ := by decide
    have hnm : name_match "a" "a" = true := by decide
    have ham : address_match "" "" = false := rfl
    unfold specResolverScore
    rw [if_neg (by decide : ¬("12\t34" : String) = "")]
    simp only [hfind, hnm, ham]
    norm_num

/-- Claim C5 (amended: the resolver strips the space character `U+0020`
from both identifiers, not all whitespace): when the space-stripped
identifiers agree, the first record is treated as the match and scored. -/
theorem resolver_strips_spaces (E : ExtractedData) (r : RefRecord) (rest : List RefRecord)
    (hu : E.uid ≠ "") (h : stripSpaces r.UID = stripSpaces E.uid) :
    calculate_match_score E (r :: rest) =
      ((if name_match r.Name E.name then (100 : ℚ) else 0) +
        (if address_match r.Address E.address then (100 : ℚ) else 0)) / 2 := by
  have hg : (E.uid == "") = false := by simp [hu]
  unfold calculate_match_score resolveScore
  rw [hg]
  simp [h]

/-- Witness for C5 (amended) at the spec's own invariant example:
`"1234 5678 9012"` matches the record identifier `"123456789012"`. -/
theorem resolver_strips_spaces_witness :
    ("1234 5678 9012" : String) ≠ "" ∧
      calculate_match_score ⟨"a", "1234 5678 9012", ""⟩ [⟨"123456789012", "a", ""⟩] =
        ((if name_match "a" "a" then (100 : ℚ) else 0) +
          (if address_match "" "" then (100 : ℚ) else 0)) / 2 :=
  ⟨by decide, resolver_strips_spaces ⟨"a", "1234 5678 9012", ""⟩ ⟨"123456789012", "a", ""⟩ []
    (by decide) (by decide)⟩

/-- Counterexample to C5 as stated: `"12\t34"` and `"1234"` are equal
after removing every whitespace character, yet the resolver does not treat
them as matching (score `0`), while the genuinely space-stripped-equal
identifier `"1234"` is treated as matching (score `50`). -/
theorem resolver_ws_counterexample :
    stripAllWs "12\t34" = stripAllWs "1234" ∧
      calculate_match_score ⟨"a", "12\t34", ""⟩ [⟨"1234", "a", ""⟩] = 0 ∧
      calculate_match_score ⟨"a", "1234", ""⟩ [⟨"1234", "a", ""⟩] = 50 := by
  refine ⟨by decide, rfl, ?_⟩
  have hnm : name_match "a" "a" = true := by decide
  have ham : address_match "" "" = false := rfl
  have hg : (("1234" : String) == "") = false := by decide
  unfold calculate_match_score resolveScore
  rw [hg]
  simp only [Bool.false_eq_true, if_false]
  have hu : (stripSpaces "1234" == stripSpaces "1234") = true := by decide
  simp only [hu, if_true, hnm, ham]
  norm_num

/-! ### Structure lemmas for `runsOf` -/

theorem length_dropWhile_le (q : Char → Bool) (l : List Char) :
    (l.dropWhile q).length ≤ l.length := by
  induction l with
  | nil => simp [List.dropWhile]
  | cons c rest ih =>
    by_cases h : q c
    · rw [List.dropWhile_cons, if_pos h]
      exact Nat.le_trans ih (Nat.le_succ _)
    · rw [List.dropWhile_cons, if_neg h]

theorem closeRun_nil_fst (x : List (List Char)) : closeRun ([], x) = x := rfl

theorem runsOfCore_fst (q : Char → Bool) (l : List Char) :
    (runsOfCore q l).1 = l.takeWhile q := by
  induction l with
  | nil => rfl
  | cons c rest ih =>
    by_cases hq : q c
    · simp [runsOfCore, hq, List.takeWhile_cons, ih]
    · simp [runsOfCore, hq, List.takeWhile_cons]

theorem runsOf_cons_neg (q : Char → Bool) (c : Char) (l : List Char) (hq : q c = false) :
    runsOf q (c :: l) = runsOf q l := by
  simp [runsOf, runsOfCore, hq, closeRun_nil_fst]

theorem runsOfCore_snd (q : Char → Bool) (l : List Char) :
    (runsOfCore q l).2 = runsOf q (l.dropWhile q) := by
  induction l with
  | nil => rfl
  | cons c rest ih =>
    by_cases hq : q c
    · simp [runsOfCore, hq, List.dropWhile_cons, ih]
    · have hq' : q c = false := by simpa using hq
      simp only [runsOfCore, hq', Bool.false_eq_true, if_false]
      rw [List.dropWhile_cons, if_neg (by simp [hq'])]
      rw [runsOf_cons_neg q c rest hq']
      show closeRun (runsOfCore q rest) = runsOf q rest
      rfl

theorem runsOfCore_eq (q : Char → Bool) (c : Char) (l : List Char) (hq : q c = true) :
    runsOfCore q (c :: l) = (c :: l.takeWhile q, runsOf q (l.dropWhile q)) := by
  have hf := runsOfCore_fst q l
  have hs := runsOfCore_snd q l
  simp only [runsOfCore, hq, if_true]
  rw [hf, hs]

theorem runsOf_cons_pos (q : Char → Bool) (c : Char) (l : List Char) (hq : q c = true) :
    runsOf q (c :: l) = (c :: l.takeWhile q) :: runsOf q (l.dropWhile q) := by
  unfold runsOf
  rw [runsOfCore_eq q c l hq]
  rfl

/-! ### `extract_pincode`: window scan versus maximal digit runs -/

theorem take_of_takeWhile_le (q : Char → Bool) (n : Nat) :
    ∀ l : List Char, n ≤ (l.takeWhile q).length →
      (l.take n).length = n ∧ (l.take n).all q = true ∧ l.take n = (l.takeWhile q).take n := by
  induction n with
  | zero => intro l _; simp
  | succ n ih =>
    intro l h
    match l with
    | [] => simp at h
    | c :: rest =>
      by_cases hq : q c
      · rw [List.takeWhile_cons, if_pos hq] at h
        simp only [List.length_cons, Nat.succ_le_succ_iff] at h
        obtain ⟨h1, h2, h3⟩ := ih rest h
        refine ⟨?_, ?_, ?_⟩
        · rw [List.take_succ_cons, List.length_cons, h1]
        · rw [List.take_succ_cons, List.all_cons, hq, h2]
          rfl
        · rw [List.take_succ_cons, List.takeWhile_cons, if_pos hq, List.take_succ_cons, h3]
      · rw [List.takeWhile_cons, if_neg hq] at h
        simp at h

theorem takeWhile_le_of_take_all (q : Char → Bool) (n : Nat) :
    ∀ l : List Char, (l.take n).length = n → (l.take n).all q = true →
      n ≤ (l.takeWhile q).length := by
  induction n with
  | zero => intro l _ _; simp
  | succ n ih =>
    intro l hlen hall
    match l with
    | [] => simp at hlen
    | c :: rest =>
      rw [List.take_succ_cons, List.length_cons] at hlen
      rw [List.take_succ_cons, List.all_cons, Bool.and_eq_true] at hall
      have hq : q c = true := hall.1
      rw [List.takeWhile_cons, if_pos hq, List.length_cons]
      have := ih rest (by omega) hall.2
      omega

theorem sixDigitWindow_skip :
    ∀ l : List Char, (l.takeWhile Char.isDigit).length < 6 →
      sixDigitWindow l = sixDigitWindow (l.dropWhile Char.isDigit) := by
  intro l
  induction l with
  | nil => intro _; rfl
  | cons c rest ih =>
    intro h
    by_cases hq : Char.isDigit c
    · rw [List.takeWhile_cons, if_pos hq] at h
      simp only [List.length_cons] at h
      have hrest : (rest.takeWhile Char.isDigit).length < 6 := by omega
      have hguard : (((c :: rest).take 6).length == 6 && ((c :: rest).take 6).all Char.isDigit) = false := by
        by_contra hg
        rw [Bool.not_eq_false, Bool.and_eq_true, beq_iff_eq] at hg
        have := takeWhile_le_of_take_all Char.isDigit 6 (c :: rest) hg.1 hg.2
        rw [List.takeWhile_cons, if_pos hq] at this
        simp only [List.length_cons] at this
        omega
      rw [sixDigitWindow, hguard]
      simp only [Bool.false_eq_true, if_false]
      rw [List.dropWhile_cons, if_pos hq]
      exact ih hrest
    · rw [List.dropWhile_cons, if_neg hq]

theorem sixDigitWindow_runs :
    ∀ l : List Char,
      sixDigitWindow l =
        ((runsOf Char.isDigit l).find? (fun r => decide (6 ≤ r.length))).map
          (fun r => List.take 6 r)
  | [] => by simp [sixDigitWindow, runsOf, runsOfCore, closeRun]
  | c :: rest => by
    by_cases hq : Char.isDigit c
    · by_cases hlong : 6 ≤ ((c :: rest).takeWhile Char.isDigit).length
      · -- the run at the head has length at least 6: the window fires here
        obtain ⟨h1, h2, h3⟩ := take_of_takeWhile_le Char.isDigit 6 (c :: rest) hlong
        have hguard : (((c :: rest).take 6).length == 6 &&
            ((c :: rest).take 6).all Char.isDigit) = true := by
          rw [h1, h2]
          rfl
        have hlong' : 6 ≤ (c :: List.takeWhile Char.isDigit rest).length := by
          rw [List.takeWhile_cons, if_pos hq] at hlong
          exact hlong
        rw [sixDigitWindow, hguard, if_pos rfl]
        rw [runsOf_cons_pos Char.isDigit c rest hq]
        rw [List.find?_cons_of_pos _ (by simp only [decide_eq_true_eq]; exact hlong')]
        show some (List.take 6 (c :: rest)) = some (List.take 6 (c :: List.takeWhile Char.isDigit rest))
        rw [h3, List.takeWhile_cons, if_pos hq]
      · -- short run at the head: both sides skip past it
        push_neg at hlong
        have hguard : (((c :: rest).take 6).length == 6 &&
            ((c :: rest).take 6).all Char.isDigit) = false := by
          by_contra hg
          rw [Bool.not_eq_false, Bool.and_eq_true, beq_iff_eq] at hg
          exact absurd (takeWhile_le_of_take_all Char.isDigit 6 (c :: rest) hg.1 hg.2)
            (by omega)
        have hskip := sixDigitWindow_skip (c :: rest) hlong
        rw [List.dropWhile_cons, if_pos hq] at hskip
        rw [hskip]
        rw [runsOf_cons_pos Char.isDigit c rest hq]
        rw [List.find?_cons_of_neg]
        · exact sixDigitWindow_runs (rest.dropWhile Char.isDigit)
        · rw [List.takeWhile_cons, if_pos hq] at hlong
          simp only [List.length_cons] at hlong ⊢
          simp
          omega
    · rw [runsOf_cons_neg Char.isDigit c rest (by simpa using hq)]
      have hguard : (((c :: rest).take 6).length == 6 &&
          ((c :: rest).take 6).all Char.isDigit) = false := by
        by_contra hg
        rw [Bool.not_eq_false, Bool.and_eq_true, beq_iff_eq] at hg
        have h6 : (0 : Nat) < 6 := by omega
        have : Char.isDigit c = true := by
          have hmem : c ∈ (c :: rest).take 6 := by
            rw [List.take_cons h6]
            exact List.mem_cons_self c _
          exact List.all_eq_true.mp hg.2 c hmem
        exact hq this
      rw [sixDigitWindow, hguard]
      simp only [Bool.false_eq_true, if_false]
      exact sixDigitWindow_runs rest
termination_by l => l.length
decreasing_by
  · simp only [List.length_cons]
    exact Nat.lt_succ_of_le (length_dropWhile_le Char.isDigit rest)
  · simp [Nat.lt_succ_self]

/-- Counterexample to C4 as stated: on `"1234567"` the digit run has
length 7 (not exactly 6), so the claimed behavior returns `""`; the code's
regex search returns the first six digits `"123456"` out of that run. -/
theorem extractPincode_counterexample :
    extract_pincode "1234567" = "123456" ∧ specPincodeExact "1234567" = "" := by
  constructor
  · decide
  · decide

/-- Claim C4 (amended: the code removes space characters only and returns
the first six digits of the first maximal digit run of length at least 6,
or `""` when no six consecutive digits exist): `extract_pincode` equals
that description. -/
theorem extractPincode_amended (s : String) : extract_pincode s = specPincodeAmended s := by
  unfold extract_pincode specPincodeAmended
  rw [sixDigitWindow_runs]
  cases ((runsOf Char.isDigit (s.data.filter fun c => c != ' ')).find?
      (fun r => decide (6 ≤ r.length))) with
  | none => rfl
  | some r => rfl

/-! ### Character facts for the normalizers -/

theorem toNat_ofNat_valid (n : Nat) (h : n.isValidChar) : (Char.ofNat n).toNat = n := by
  unfold Char.ofNat
  rw [dif_pos h]
  rfl

theorem pyLower_eq (x : Char) :
    pyLower x = if 65 ≤ x.toNat && x.toNat ≤ 90 then Char.ofNat (x.toNat + 32) else x := rfl

theorem pyLower_toNat_upper (c : Char) (h : (65 ≤ c.toNat && c.toNat ≤ 90) = true) :
    (pyLower c).toNat = c.toNat + 32 := by
  rw [pyLower_eq, if_pos h]
  refine toNat_ofNat_valid _ ?_
  simp only [Bool.and_eq_true, decide_eq_true_eq] at h
  exact Or.inl (by omega)

theorem pyLower_not_upper (c : Char) (h : (65 ≤ c.toNat && c.toNat ≤ 90) = false) :
    pyLower c = c := by
  rw [pyLower_eq, h]
  rfl

theorem pyLower_idem (c : Char) : pyLower (pyLower c) = pyLower c := by
  by_cases h : (65 ≤ c.toNat && c.toNat ≤ 90) = true
  · have ht := pyLower_toNat_upper c h
    refine pyLower_not_upper _ ?_
    rw [ht]
    simp only [Bool.and_eq_true, decide_eq_true_eq] at h ⊢
    simp only [Bool.and_eq_false_iff, decide_eq_false_iff_not]
    right
    omega
  · rw [pyLower_not_upper c (by simpa using h), pyLower_not_upper c (by simpa using h)]

theorem pyLower_punct (c : Char) (h : isPyPunct c = false) : isPyPunct (pyLower c) = false := by
  by_cases hu : (65 ≤ c.toNat && c.toNat ≤ 90) = true
  · have ht := pyLower_toNat_upper c hu
    simp only [Bool.and_eq_true, decide_eq_true_eq] at hu
    unfold isPyPunct
    rw [ht]
    simp only [Bool.or_eq_false_iff, Bool.and_eq_false_iff, decide_eq_false_iff_not]
    omega
  · rw [pyLower_not_upper c (by simpa using hu)]
    exact h

theorem pyLower_space : pyLower ' ' = ' ' := rfl

/-! ### Generic list helpers -/

theorem filter_id_of_all {α : Type} (p : α → Bool) (l : List α)
    (h : ∀ c ∈ l, p c = true) : l.filter p = l := by
  induction l with
  | nil => rfl
  | cons c rest ih =>
    rw [List.filter_cons, if_pos (h c (List.mem_cons_self c rest))]
    rw [ih fun x hx => h x (List.mem_cons_of_mem c hx)]

theorem map_id_of_fixed {α : Type} (f : α → α) (l : List α)
    (h : ∀ c ∈ l, f c = c) : l.map f = l := by
  induction l with
  | nil => rfl
  | cons c rest ih =>
    rw [List.map_cons, h c (List.mem_cons_self c rest),
      ih fun x hx => h x (List.mem_cons_of_mem c hx)]

theorem takeWhile_append_all {α : Type} (q : α → Bool) (t l : List α)
    (h : ∀ c ∈ t, q c = true) : (t ++ l).takeWhile q = t ++ l.takeWhile q := by
  induction t with
  | nil => rfl
  | cons c rest ih =>
    rw [List.cons_append, List.takeWhile_cons, if_pos (h c (List.mem_cons_self c rest))]
    rw [ih fun x hx => h x (List.mem_cons_of_mem c hx), List.cons_append]

theorem dropWhile_append_all {α : Type} (q : α → Bool) (t l : List α)
    (h : ∀ c ∈ t, q c = true) : (t ++ l).dropWhile q = l.dropWhile q := by
  induction t with
  | nil => rfl
  | cons c rest ih =>
    rw [List.cons_append, List.dropWhile_cons, if_pos (h c (List.mem_cons_self c rest))]
    exact ih fun x hx => h x (List.mem_cons_of_mem c hx)

theorem takeWhile_all {α : Type} (q : α → Bool) (l : List α)
    (h : ∀ c ∈ l, q c = true) : l.takeWhile q = l := by
  have := takeWhile_append_all q l [] h
  simpa using this

theorem dropWhile_all {α : Type} (q : α → Bool) (l : List α)
    (h : ∀ c ∈ l, q c = true) : l.dropWhile q = [] := by
  have := dropWhile_append_all q l [] h
  simpa using this

/-! ### Runs: well-formedness, single runs, separators, round trip -/

theorem runsOfCore_wf (q : Char → Bool) (l : List Char) :
    (∀ c ∈ (runsOfCore q l).1, q c = true ∧ c ∈ l) ∧
      ∀ t ∈ (runsOfCore q l).2, t ≠ [] ∧ ∀ c ∈ t, q c = true ∧ c ∈ l := by
  induction l with
  | nil => exact ⟨fun c hc => absurd hc (List.not_mem_nil c), fun t ht => absurd ht (List.not_mem_nil t)⟩
  | cons c rest ih =>
    obtain ⟨ih1, ih2⟩ := ih
    by_cases hq : q c
    · simp only [runsOfCore, hq, if_true]
      constructor
      · intro x hx
        rcases List.mem_cons.mp hx with rfl | hx
        · exact ⟨hq, List.mem_cons_self _ _⟩
        · exact ⟨(ih1 x hx).1, List.mem_cons_of_mem c (ih1 x hx).2⟩
      · intro t ht
        refine ⟨(ih2 t ht).1, fun x hx => ?_⟩
        exact ⟨((ih2 t ht).2 x hx).1, List.mem_cons_of_mem c ((ih2 t ht).2 x hx).2⟩
    · have hq' : q c = false := by simpa using hq
      simp only [runsOfCore, hq', Bool.false_eq_true, if_false]
      refine ⟨fun x hx => absurd hx (List.not_mem_nil x), ?_⟩
      intro t ht
      unfold closeRun at ht
      by_cases he : (runsOfCore q rest).1.isEmpty
      · rw [if_pos he] at ht
        refine ⟨(ih2 t ht).1, fun x hx => ?_⟩
        exact ⟨((ih2 t ht).2 x hx).1, List.mem_cons_of_mem c ((ih2 t ht).2 x hx).2⟩
      · rw [if_neg he] at ht
        rcases List.mem_cons.mp ht with rfl | ht
        · refine ⟨by simpa [List.isEmpty_iff] using he, fun x hx => ?_⟩
          exact ⟨(ih1 x hx).1, List.mem_cons_of_mem c (ih1 x hx).2⟩
        · refine ⟨(ih2 t ht).1, fun x hx => ?_⟩
          exact ⟨((ih2 t ht).2 x hx).1, List.mem_cons_of_mem c ((ih2 t ht).2 x hx).2⟩

theorem runsOf_wf (q : Char → Bool) (l : List Char) :
    ∀ t ∈ runsOf q l, t ≠ [] ∧ ∀ c ∈ t, q c = true ∧ c ∈ l := by
  obtain ⟨h1, h2⟩ := runsOfCore_wf q l
  intro t ht
  unfold runsOf closeRun at ht
  by_cases he : (runsOfCore q l).1.isEmpty
  · rw [if_pos he] at ht
    exact h2 t ht
  · rw [if_neg he] at ht
    rcases List.mem_cons.mp ht with rfl | ht
    · exact ⟨by simpa [List.isEmpty_iff] using he, h1⟩
    · exact h2 t ht

theorem runsOf_all_single (q : Char → Bool) (l : List Char) (hne : l ≠ [])
    (h : ∀ c ∈ l, q c = true) : runsOf q l = [l] := by
  match l with
  | [] => exact absurd rfl hne
  | c :: rest =>
    rw [runsOf_cons_pos q c rest (h c (List.mem_cons_self c rest))]
    rw [takeWhile_all q rest fun x hx => h x (List.mem_cons_of_mem c hx)]
    rw [dropWhile_all q rest fun x hx => h x (List.mem_cons_of_mem c hx)]
    rfl

theorem runsOf_append_sep (q : Char → Bool) (t l : List Char) (d : Char)
    (hne : t ≠ []) (ht : ∀ c ∈ t, q c = true) (hd : q d = false) :
    runsOf q (t ++ d :: l) = t :: runsOf q l := by
  match t with
  | [] => exact absurd rfl hne
  | c :: t0 =>
    rw [List.cons_append, runsOf_cons_pos q c _ (ht c (List.mem_cons_self c t0))]
    have ht0 : ∀ x ∈ t0, q x = true := fun x hx => ht x (List.mem_cons_of_mem c hx)
    rw [takeWhile_append_all q t0 (d :: l) ht0, dropWhile_append_all q t0 (d :: l) ht0]
    rw [List.takeWhile_cons, if_neg (by simp [hd]), List.dropWhile_cons,
      if_neg (by simp [hd]), List.append_nil]
    rw [runsOf_cons_neg q d l hd]

theorem runsOf_joinSp (q : Char → Bool) (hsp : q ' ' = false) :
    ∀ ts : List (List Char), (∀ t ∈ ts, t ≠ [] ∧ ∀ c ∈ t, q c = true) →
      runsOf q (joinSp ts) = ts
  | [], _ => rfl
  | [t], h => by
    rw [joinSp]
    exact runsOf_all_single q t (h t (List.mem_cons_self t [])).1 (h t (List.mem_cons_self t [])).2
  | t :: t' :: ts, h => by
    rw [joinSp]
    rw [runsOf_append_sep q t (joinSp (t' :: ts)) ' ' (h t (List.mem_cons_self t _)).1
      (h t (List.mem_cons_self t _)).2 hsp]
    rw [runsOf_joinSp q hsp (t' :: ts) fun x hx => h x (List.mem_cons_of_mem t hx)]

theorem mem_joinSp (c : Char) :
    ∀ ts : List (List Char), c ∈ joinSp ts → c = ' ' ∨ ∃ t ∈ ts, c ∈ t
  | [], h => absurd h (List.not_mem_nil c)
  | [t], h => by
    rw [joinSp] at h
    exact Or.inr ⟨t, List.mem_cons_self t [], h⟩
  | t :: t' :: ts, h => by
    rw [joinSp] at h
    rcases List.mem_append.mp h with h | h
    · exact Or.inr ⟨t, List.mem_cons_self t _, h⟩
    · rcases List.mem_cons.mp h with rfl | h
      · exact Or.inl rfl
      · rcases mem_joinSp c (t' :: ts) h with h | ⟨u, hu, hcu⟩
        · exact Or.inl h
        · exact Or.inr ⟨u, List.mem_cons_of_mem t hu, hcu⟩

/-! ### Idempotence of the normalizers -/

/-- A token list whose characters are whitespace-free, punctuation-free
and lower-case-fixed is left unchanged by the normalization pipeline of
`normalize_text` (filter punctuation, lower-case, re-split). -/
theorem norm_list_idem (ts : List (List Char))
    (hwf : ∀ t ∈ ts, t ≠ [] ∧ ∀ c ∈ t,
      (!isPyWs c) = true ∧ isPyPunct c = false ∧ pyLower c = c) :
    joinSp (pySplit (((joinSp ts).filter fun c => !isPyPunct c).map pyLower)) = joinSp ts := by
  have hfilter : (joinSp ts).filter (fun c => !isPyPunct c) = joinSp ts := by
    refine filter_id_of_all _ _ fun c hc => ?_
    rcases mem_joinSp c ts hc with rfl | ⟨t, ht, hct⟩
    · decide
    · simpa using ((hwf t ht).2 c hct).2.1
  have hmap : (joinSp ts).map pyLower = joinSp ts := by
    refine map_id_of_fixed _ _ fun c hc => ?_
    rcases mem_joinSp c ts hc with rfl | ⟨t, ht, hct⟩
    · exact pyLower_space
    · exact ((hwf t ht).2 c hct).2.2
  rw [hfilter, hmap]
  unfold pySplit
  rw [runsOf_joinSp _ (by decide) ts
    fun t ht => ⟨(hwf t ht).1, fun c hc => ((hwf t ht).2 c hc).1⟩]

theorem normalize_text_idem (s : String) :
    normalize_text (normalize_text s) = normalize_text s := by
  unfold normalize_text
  congr 1
  refine norm_list_idem _ fun t ht => ?_
  have hw := runsOf_wf _ _ t ht
  refine ⟨hw.1, fun c hc => ?_⟩
  obtain ⟨hq, hmem⟩ := hw.2 c hc
  obtain ⟨c0, hc0, rfl⟩ := List.mem_map.mp hmem
  obtain ⟨_, hp0⟩ := List.mem_filter.mp hc0
  have hp0' : isPyPunct c0 = false := by simpa using hp0
  exact ⟨hq, pyLower_punct c0 hp0', pyLower_idem c0⟩

/-- The analogous stability for the `normalize_address` pipeline
(lower-case, filter punctuation, re-split, drop ignore terms). -/
theorem norm_addr_list_idem (ts : List (List Char))
    (hwf : ∀ t ∈ ts, t ≠ [] ∧ ∀ c ∈ t,
      (!isPyWs c) = true ∧ isPyPunct c = false ∧ pyLower c = c)
    (hig : ∀ w ∈ ts,
      (!(ADDRESS_TERMS_TO_IGNORE.contains (String.mk (w.map pyLower)))) = true) :
    joinSp ((pySplit (((joinSp ts).map pyLower).filter fun c => !isPyPunct c)).filter
      fun w => !(ADDRESS_TERMS_TO_IGNORE.contains (String.mk (w.map pyLower)))) = joinSp ts := by
  have hmap : (joinSp ts).map pyLower = joinSp ts := by
    refine map_id_of_fixed _ _ fun c hc => ?_
    rcases mem_joinSp c ts hc with rfl | ⟨t, ht, hct⟩
    · exact pyLower_space
    · exact ((hwf t ht).2 c hct).2.2
  have hfilter : (joinSp ts).filter (fun c => !isPyPunct c) = joinSp ts := by
    refine filter_id_of_all _ _ fun c hc => ?_
    rcases mem_joinSp c ts hc with rfl | ⟨t, ht, hct⟩
    · decide
    · simpa using ((hwf t ht).2 c hct).2.1
  rw [hmap, hfilter]
  unfold pySplit
  rw [runsOf_joinSp _ (by decide) ts
    fun t ht => ⟨(hwf t ht).1, fun c hc => ((hwf t ht).2 c hc).1⟩]
  rw [filter_id_of_all _ ts hig]

theorem normalize_address_idem (s : String) :
    normalize_address (normalize_address s) = normalize_address s := by
  simp only [normalize_address]
  congr 1
  refine norm_addr_list_idem _ (fun t ht => ?_) (fun w hw => (List.mem_filter.mp hw).2)
  have ht' := List.mem_filter.mp ht
  have hw := runsOf_wf _ _ t ht'.1
  refine ⟨hw.1, fun c hc => ?_⟩
  obtain ⟨hq, hmem⟩ := hw.2 c hc
  obtain ⟨hmaps, hp⟩ := List.mem_filter.mp hmem
  obtain ⟨c0, hc0, rfl⟩ := List.mem_map.mp hmaps
  exact ⟨hq, by simpa using hp, pyLower_idem c0⟩

/-- Claim C8: both normalizers are idempotent — applying `normalize_text`
or `normalize_address` twice gives the same result as applying it once. -/
theorem normalization_idempotent (s : String) :
    normalize_text (normalize_text s) = normalize_text s ∧
      normalize_address (normalize_address s) = normalize_address s :=
  ⟨normalize_text_idem s, normalize_address_idem s⟩

theorem diag_pop (x : List Char) (i : Nat) (h : isPopular x (x.getD i ' ') = true) :
    diag x i = 0 := by
  cases i with
  | zero => unfold diag; rw [h]; rfl
  | succ t => unfold diag; rw [h]; rfl

theorem diag_nonpop (x : List Char) (i : Nat) (h : isPopular x (x.getD i ' ') = false) :
    diag x i = dpred x i + 1 := by
  cases i with
  | zero => unfold diag dpred; rw [h]; rfl
  | succ t => unfold diag dpred; rw [h]; rfl

theorem diag_le (x : List Char) (i : Nat) : diag x i ≤ i + 1 := by
  induction i with
  | zero => unfold diag; split <;> omega
  | succ t ih => unfold diag; split <;> omega

theorem mem_b2j_iff (x : List Char) (c : Char) (j : Nat) :
    j ∈ b2j x c ↔ isPopular x c = false ∧ j < x.length ∧ x.getD j ' ' = c := by
  unfold b2j indicesOf
  by_cases hp : isPopular x c
  · simp [hp]
  · have hp' : isPopular x c = false := by simpa using hp
    simp [hp', List.mem_filter, List.mem_range]

theorem b2j_sorted (x : List Char) (c : Char) : (b2j x c).Pairwise (· < ·) := by
  unfold b2j indicesOf
  split
  · exact List.Pairwise.nil
  · exact (List.pairwise_lt_range x.length).filter _

theorem lookupJ_nil (j : Nat) : lookupJ [] j = 0 := rfl

theorem lookupJ_cons_self (l : List (Nat × Nat)) (j k : Nat) :
    lookupJ ((j, k) :: l) j = k := by
  unfold lookupJ
  rw [List.find?_cons_of_pos _ (by simp)]

theorem lookupJ_cons_ne (l : List (Nat × Nat)) (j k j' : Nat) (h : j' ≠ j) :
    lookupJ ((j, k) :: l) j' = lookupJ l j' := by
  unfold lookupJ
  rw [List.find?_cons_of_neg _ (by simp; exact Ne.symm h)]

theorem innerLoop_diag (x : List Char) (i : Nat) (hi : i < x.length)
    (hnp : isPopular x (x.getD i ' ') = false)
    (old : List (Nat × Nat))
    (hold1 : ∀ j, lookupJ old j ≤ diag x j)
    (hold2 : ∀ j, lookupJ old j ≤ dpred x i)
    (hold3 : ∀ t, i = t + 1 → lookupJ old t = diag x t) :
    ∀ (js : List Nat) (new : List (Nat × Nat)) (best : Nat × Nat × Nat),
      (∀ j ∈ js, j ∈ b2j x (x.getD i ' ')) →
      js.Pairwise (· < ·) →
      (∀ j, lookupJ new j ≤ diag x j) →
      (∀ j, lookupJ new j ≤ diag x i) →
      best.1 = best.2.1 →
      (∀ j, j < i → diag x j ≤ best.2.2) →
      best.1 + best.2.2 ≤ x.length →
      (i ∈ js ∨ (diag x i ≤ best.2.2 ∧ lookupJ new i = diag x i)) →
      InnerOut x i (innerLoop i js old new best)
  | [], new, best, _, _, hnew1, hnew2, hb, hball, hsum, hcov => by
    rcases hcov with hcov | ⟨hc1, hc2⟩
    · exact absurd hcov (List.not_mem_nil i)
    · exact ⟨hb, hball, hsum, hnew1, hnew2, hc1, hc2⟩
  | j :: rest, new, best, hjs, hsort, hnew1, hnew2, hb, hball, hsum, hcov => by
    obtain ⟨hnpc, hjlt, hcj⟩ := (mem_b2j_iff x _ j).mp (hjs j (List.mem_cons_self j rest))
    have hnpj : isPopular x (x.getD j ' ') = false := by rw [hcj]; exact hnp
    have hjs' : ∀ j' ∈ rest, j' ∈ b2j x (x.getD i ' ') :=
      fun j' hj' => hjs j' (List.mem_cons_of_mem j hj')
    have hsort' : rest.Pairwise (· < ·) := (List.pairwise_cons.mp hsort).2
    have hheadlt : ∀ j' ∈ rest, j < j' := (List.pairwise_cons.mp hsort).1
    -- the computed DP value at (i, j)
    have hk_diag_j : (if j == 0 then 0 else lookupJ old (j - 1)) + 1 ≤ diag x j := by
      match j with
      | 0 =>
        rw [diag_nonpop x 0 hnpj]
        simp [dpred]
      | t + 1 =>
        rw [diag_nonpop x (t + 1) hnpj]
        rw [if_neg (by simp : ¬ ((t + 1 : Nat) == 0) = true), Nat.add_sub_cancel]
        show lookupJ old t + 1 ≤ diag x t + 1
        exact Nat.succ_le_succ (hold1 t)
    have hk_diag_i : (if j == 0 then 0 else lookupJ old (j - 1)) + 1 ≤ diag x i := by
      rw [diag_nonpop x i hnp]
      match j with
      | 0 => simp
      | t + 1 =>
        rw [if_neg (by simp : ¬ ((t + 1 : Nat) == 0) = true), Nat.add_sub_cancel]
        exact Nat.succ_le_succ (hold2 t)
    rcases Nat.lt_trichotomy j i with hji | heq | hij
    · -- j < i : the candidate is bounded by an already-dominated diagonal run
      have hnoup : ¬ best.2.2 < (if j == 0 then 0 else lookupJ old (j - 1)) + 1 := by
        have h1 := hball j hji
        omega
      show InnerOut x i (innerLoop i rest old
        ((j, (if j == 0 then 0 else lookupJ old (j - 1)) + 1) :: new)
        (if best.2.2 < (if j == 0 then 0 else lookupJ old (j - 1)) + 1 then
          (i + 1 - ((if j == 0 then 0 else lookupJ old (j - 1)) + 1),
            j + 1 - ((if j == 0 then 0 else lookupJ old (j - 1)) + 1),
            (if j == 0 then 0 else lookupJ old (j - 1)) + 1)
        else best))
      rw [if_neg hnoup]
      refine innerLoop_diag x i hi hnp old hold1 hold2 hold3 rest _ best hjs' hsort'
        ?_ ?_ hb hball hsum ?_
      · intro j'
        by_cases hjj : j' = j
        · subst hjj
          rw [lookupJ_cons_self]
          exact hk_diag_j
        · rw [lookupJ_cons_ne _ _ _ _ hjj]
          exact hnew1 j'
      · intro j'
        by_cases hjj : j' = j
        · subst hjj
          rw [lookupJ_cons_self]
          exact hk_diag_i
        · rw [lookupJ_cons_ne _ _ _ _ hjj]
          exact hnew2 j'
      · rcases hcov with hcov | ⟨hc1, hc2⟩
        · rcases List.mem_cons.mp hcov with rfl | hcov
          · omega
          · exact Or.inl hcov
        · refine Or.inr ⟨hc1, ?_⟩
          rw [lookupJ_cons_ne _ _ _ _ (by omega : i ≠ j)]
          exact hc2
    · -- j = i : the diagonal cell; the best becomes (or stays) diagonal
      subst heq
      have hk_eq : (if j == 0 then 0 else lookupJ old (j - 1)) + 1 = diag x j := by
        match j with
        | 0 =>
          rw [diag_nonpop x 0 hnp]
          simp [dpred]
        | t + 1 =>
          rw [diag_nonpop x (t + 1) hnp]
          rw [if_neg (by simp : ¬ ((t + 1 : Nat) == 0) = true), Nat.add_sub_cancel]
          show lookupJ old t + 1 = dpred x (t + 1) + 1
          rw [hold3 t rfl]
          rfl

      by_cases hup : best.2.2 < (if j == 0 then 0 else lookupJ old (j - 1)) + 1
      · -- the diagonal candidate wins: install a diagonal best
        show InnerOut x j (innerLoop j rest old
          ((j, (if j == 0 then 0 else lookupJ old (j - 1)) + 1) :: new)
          (if best.2.2 < (if j == 0 then 0 else lookupJ old (j - 1)) + 1 then
            (j + 1 - ((if j == 0 then 0 else lookupJ old (j - 1)) + 1),
              j + 1 - ((if j == 0 then 0 else lookupJ old (j - 1)) + 1),
              (if j == 0 then 0 else lookupJ old (j - 1)) + 1)
          else best))
        rw [if_pos hup]
        have hdle := diag_le x j
        refine innerLoop_diag x j hi hnp old hold1 hold2 hold3 rest _ _ hjs' hsort'
          ?_ ?_ rfl ?_ ?_ ?_
        · intro j'
          by_cases hjj : j' = j
          · subst hjj
            rw [lookupJ_cons_self]
            exact hk_diag_j
          · rw [lookupJ_cons_ne _ _ _ _ hjj]
            exact hnew1 j'
        · intro j'
          by_cases hjj : j' = j
          · subst hjj
            rw [lookupJ_cons_self]
            exact hk_diag_i
          · rw [lookupJ_cons_ne _ _ _ _ hjj]
            exact hnew2 j'
        · intro j' hj'
          have := hball j' hj'
          simp only
          omega
        · simp only
          omega
        · refine Or.inr ⟨?_, ?_⟩
          · simp only
            omega
          · rw [lookupJ_cons_self]
            exact hk_eq
      · -- the diagonal candidate does not beat the current (diagonal) best
        show InnerOut x j (innerLoop j rest old
          ((j, (if j == 0 then 0 else lookupJ old (j - 1)) + 1) :: new)
          (if best.2.2 < (if j == 0 then 0 else lookupJ old (j - 1)) + 1 then
            (j + 1 - ((if j == 0 then 0 else lookupJ old (j - 1)) + 1),
              j + 1 - ((if j == 0 then 0 else lookupJ old (j - 1)) + 1),
              (if j == 0 then 0 else lookupJ old (j - 1)) + 1)
          else best))
        rw [if_neg hup]
        refine innerLoop_diag x j hi hnp old hold1 hold2 hold3 rest _ best hjs' hsort'
          ?_ ?_ hb hball hsum ?_
        · intro j'
          by_cases hjj : j' = j
          · subst hjj
            rw [lookupJ_cons_self]
            exact hk_diag_j
          · rw [lookupJ_cons_ne _ _ _ _ hjj]
            exact hnew1 j'
        · intro j'
          by_cases hjj : j' = j
          · subst hjj
            rw [lookupJ_cons_self]
            exact hk_diag_i
          · rw [lookupJ_cons_ne _ _ _ _ hjj]
            exact hnew2 j'
        · refine Or.inr ⟨by omega, ?_⟩
          rw [lookupJ_cons_self]
          exact hk_eq
    · -- i < j : the best already dominates the diagonal run at i,
      -- and the candidate at (i, j) is bounded by it
      have hcov' : diag x i ≤ best.2.2 ∧ lookupJ new i = diag x i := by
        rcases hcov with hcov | hcov
        · rcases List.mem_cons.mp hcov with rfl | hcov
          · omega
          · exact absurd (hheadlt i hcov) (by omega)
        · exact hcov
      have hnoup : ¬ best.2.2 < (if j == 0 then 0 else lookupJ old (j - 1)) + 1 := by
        have := hcov'.1
        omega
      show InnerOut x i (innerLoop i rest old
        ((j, (if j == 0 then 0 else lookupJ old (j - 1)) + 1) :: new)
        (if best.2.2 < (if j == 0 then 0 else lookupJ old (j - 1)) + 1 then
          (i + 1 - ((if j == 0 then 0 else lookupJ old (j - 1)) + 1),
            j + 1 - ((if j == 0 then 0 else lookupJ old (j - 1)) + 1),
            (if j == 0 then 0 else lookupJ old (j - 1)) + 1)
        else best))
      rw [if_neg hnoup]
      refine innerLoop_diag x i hi hnp old hold1 hold2 hold3 rest _ best hjs' hsort'
        ?_ ?_ hb hball hsum ?_
      · intro j'
        by_cases hjj : j' = j
        · subst hjj
          rw [lookupJ_cons_self]
          exact hk_diag_j
        · rw [lookupJ_cons_ne _ _ _ _ hjj]
          exact hnew1 j'
      · intro j'
        by_cases hjj : j' = j
        · subst hjj
          rw [lookupJ_cons_self]
          exact hk_diag_i
        · rw [lookupJ_cons_ne _ _ _ _ hjj]
          exact hnew2 j'
      · refine Or.inr ⟨hcov'.1, ?_⟩
        rw [lookupJ_cons_ne _ _ _ _ (by omega : i ≠ j)]
        exact hcov'.2

theorem outerLoop_cons (a b : List Char) (blo bhi i : Nat) (is : List Nat)
    (j2len : List (Nat × Nat)) (best : Nat × Nat × Nat) :
    outerLoop a b blo bhi (i :: is) j2len best =
      outerLoop a b blo bhi is
        (innerLoop i (((b2j b (a.getD i ' ')).filter fun j => decide (blo ≤ j)).takeWhile
          fun j => decide (j < bhi)) j2len [] best).1
        (innerLoop i (((b2j b (a.getD i ' ')).filter fun j => decide (blo ≤ j)).takeWhile
          fun j => decide (j < bhi)) j2len [] best).2 := rfl

theorem outerLoop_diag (x : List Char) :
    ∀ (cnt i : Nat) (j2len : List (Nat × Nat)) (best : Nat × Nat × Nat),
      i + cnt = x.length →
      (∀ j, lookupJ j2len j ≤ diag x j) →
      (∀ j, lookupJ j2len j ≤ dpred x i) →
      (∀ t, i = t + 1 → lookupJ j2len t = diag x t) →
      best.1 = best.2.1 →
      (∀ j, j < i → diag x j ≤ best.2.2) →
      best.1 + best.2.2 ≤ x.length →
      (outerLoop x x 0 x.length (List.range' i cnt) j2len best).1 =
          (outerLoop x x 0 x.length (List.range' i cnt) j2len best).2.1 ∧
        (outerLoop x x 0 x.length (List.range' i cnt) j2len best).1 +
          (outerLoop x x 0 x.length (List.range' i cnt) j2len best).2.2 ≤ x.length
  | 0, i, j2len, best, hcnt, _, _, _, hb, _, hsum => ⟨hb, hsum⟩
  | cnt + 1, i, j2len, best, hcnt, ho1, ho2, ho3, hb, hball, hsum => by
    have hi : i < x.length := by omega
    rw [List.range'_succ, outerLoop_cons]
    have hfil : (b2j x (x.getD i ' ')).filter (fun j => decide (0 ≤ j)) =
        b2j x (x.getD i ' ') :=
      filter_id_of_all _ _ fun j _ => by simp
    by_cases hpop : isPopular x (x.getD i ' ') = true
    · have hb2j : b2j x (x.getD i ' ') = [] := by unfold b2j; rw [if_pos hpop]
      rw [hb2j]
      have hd0 : diag x i = 0 := diag_pop x i hpop
      exact outerLoop_diag x cnt (i + 1) [] best (by omega)
        (fun j => by rw [lookupJ_nil]; omega)
        (fun j => by rw [lookupJ_nil]; omega)
        (fun t ht => by
          have : t = i := by omega
          subst this
          rw [lookupJ_nil, hd0])
        hb
        (fun j hj => by
          rcases Nat.lt_or_ge j i with h | h
          · exact hball j h
          · have : j = i := by omega
            subst this
            rw [hd0]
            omega)
        hsum
    · have hpop' : isPopular x (x.getD i ' ') = false := by simpa using hpop
      have htw : (b2j x (x.getD i ' ')).takeWhile (fun j => decide (j < x.length)) =
          b2j x (x.getD i ' ') := by
        refine takeWhile_all _ _ fun j hj => ?_
        have := ((mem_b2j_iff x _ j).mp hj).2.1
        simpa using this
      rw [hfil, htw]
      have hio := innerLoop_diag x i hi hpop' j2len ho1 ho2 ho3
        (b2j x (x.getD i ' ')) [] best (fun j hj => hj) (b2j_sorted x _)
        (fun j => by rw [lookupJ_nil]; omega) (fun j => by rw [lookupJ_nil]; omega)
        hb hball hsum
        (Or.inl ((mem_b2j_iff x _ i).mpr ⟨hpop', hi, rfl⟩))
      obtain ⟨io1, io2, io3, io4, io5, io6, io7⟩ := hio
      refine outerLoop_diag x cnt (i + 1) _ _ (by omega) io4 ?_ ?_ io1 ?_ io3
      · intro j
        exact io5 j
      · intro t ht
        have : t = i := by omega
        subst this
        exact io7
      · intro j hj
        rcases Nat.lt_or_ge j i with h | h
        · exact io2 j h
        · have : j = i := by omega
          subst this
          exact io6

theorem extendBack_diag (x : List Char) :
    ∀ bi k, extendBack x x 0 0 bi bi k = (0, 0, bi + k)
  | 0, k => by simp [extendBack]
  | bi + 1, k => by
    rw [extendBack]
    rw [if_pos (by simp)]
    rw [Nat.add_sub_cancel]
    rw [extendBack_diag x bi (k + 1)]
    have : bi + (k + 1) = bi + 1 + k := by omega
    rw [this]

theorem extendFwdAux_diag (x : List Char) :
    ∀ fuel k, fuel = x.length - k → k ≤ x.length →
      extendFwdAux x x x.length x.length 0 0 fuel k = x.length
  | 0, k, h1, h2 => by
    have : k = x.length := by omega
    rw [extendFwdAux, this]
  | fuel + 1, k, h1, h2 => by
    have hk : k < x.length := by omega
    rw [extendFwdAux]
    rw [if_pos (by simp [hk])]
    exact extendFwdAux_diag x fuel (k + 1) (by omega) (by omega)

/-- On two copies of the same string, `find_longest_match` over the full
ranges returns the whole string as a single diagonal block. -/
theorem flm_self (x : List Char) :
    find_longest_match x x 0 x.length 0 x.length = (0, 0, x.length) := by
  obtain ⟨hdiag, hsum⟩ := outerLoop_diag x x.length 0 [] (0, 0, 0) (by omega)
    (fun j => by rw [lookupJ_nil]; omega) (fun j => by rw [lookupJ_nil]; omega)
    (fun t ht => by omega) rfl (fun j hj => absurd hj (Nat.not_lt_zero j)) (by simp)
  unfold find_longest_match
  rw [Nat.sub_zero]
  set r := outerLoop x x 0 x.length (List.range' 0 x.length) [] (0, 0, 0) with hr
  show ((extendBack x x 0 0 r.1 r.2.1 r.2.2).1,
      (extendBack x x 0 0 r.1 r.2.1 r.2.2).2.1,
      extendFwd x x x.length x.length (extendBack x x 0 0 r.1 r.2.1 r.2.2).1
        (extendBack x x 0 0 r.1 r.2.1 r.2.2).2.1
        (extendBack x x 0 0 r.1 r.2.1 r.2.2).2.2) = (0, 0, x.length)
  rw [← hdiag]
  rw [extendBack_diag x r.1 r.2.2]
  show (0, 0, extendFwd x x x.length x.length 0 0 (r.1 + r.2.2)) = (0, 0, x.length)
  unfold extendFwd
  rw [extendFwdAux_diag x (x.length - (0 + (r.1 + r.2.2))) (r.1 + r.2.2)
    (by omega) hsum]

/-- On two copies of the same string every character matches:
`M = len(x)`. -/
theorem matchTotal_self (x : List Char) : matchTotal x x = x.length := by
  by_cases hn : x.length = 0
  · have hx : x = [] := List.length_eq_zero.mp hn
    subst hx
    rfl
  · unfold matchTotal
    rw [matchTotalAux]
    rw [flm_self]
    simp only []
    rw [if_neg (by simpa using hn)]
    have hc1 : (decide (0 < 0) && decide (0 < 0)) = false := by decide
    have hc2 : (decide (0 + x.length < x.length) && decide (0 + x.length < x.length)) = false := by
      simp
    rw [hc1, hc2]
    simp

/-- `similarity_ratio` on two copies of a non-empty string is exactly 100,
autojunk included (the popular-character rule can empty the DP index, but
the non-junk extension loops still recover the full diagonal match). -/
theorem ratio_self_100 (x : String) (h : x ≠ "") : similarity_ratio x x = 100 := by
  have hm := matchTotal_self x.data
  have hne : x.data.length ≠ 0 := by
    intro hl
    obtain ⟨l⟩ := x
    have : l = [] := List.length_eq_zero.mp hl
    subst this
    exact h rfl
  unfold similarity_ratio
  rw [show ((x == "") || (x == "")) = false from by simp [h]]
  simp only [Bool.false_eq_true, if_false]
  rw [hm]
  have hq : (x.length : ℚ) ≠ 0 := Nat.cast_ne_zero.mpr hne
  field_simp
  ring

/-- Counterexample to C3 as stated: at the empty string the guard of
`similarity_ratio` returns `0`, not `100`. -/
theorem similarityRatio_empty_counterexample :
    similarity_ratio "" "" = 0 ∧ (0 : ℚ) ≠ 100 :=
  ⟨rfl, by norm_num⟩

/-- Claim C3 (amended: for every *non-empty* `x`; the empty string returns
`0` through the empty-input guard): `similarity_ratio x x = 100`. -/
theorem similarityRatio_self_amended (x : String) (h : x ≠ "") :
    similarity_ratio x x = 100 :=
  ratio_self_100 x h

/-- Witness for the amended C3 at `x = "abc"`. -/
theorem similarityRatio_self_amended_witness :
    ("abc" : String) ≠ "" ∧ similarity_ratio "abc" "abc" = 100 :=
  ⟨by decide, similarityRatio_self_amended "abc" (by decide)⟩

/-- Counterexample to C2 as stated: `SequenceMatcher` is order-dependent —
on `("ab", "bacb")` the greedy block decomposition matches 2 characters,
on `("bacb", "ab")` only 1, so the two orders give different ratios. -/
theorem similarityRatio_asym_counterexample :
    similarity_ratio "ab" "bacb" = 200 / 3 ∧ similarity_ratio "bacb" "ab" = 100 / 3 ∧
      similarity_ratio "ab" "bacb" ≠ similarity_ratio "bacb" "ab" := by
  have h1 : matchTotal "ab".data "bacb".data = 2 := by decide
  have h2 : matchTotal "bacb".data "ab".data = 1 := by decide
  have e1 : similarity_ratio "ab" "bacb" = 200 / 3 := by
    simp only [similarity_ratio, h1]
    norm_num
    exact ⟨by decide, by decide⟩
  have e2 : similarity_ratio "bacb" "ab" = 100 / 3 := by
    simp only [similarity_ratio, h2]
    norm_num
    exact ⟨by decide, by decide⟩
  refine ⟨e1, e2, ?_⟩
  rw [e1, e2]
  norm_num

/-- Claim C2 (amended: the two argument orders agree when the arguments
are equal or either one is empty; in general the matcher depends on the
argument order and symmetry fails). -/
theorem similarityRatio_symm_amended (x y : String) (h : x = y ∨ x = "" ∨ y = "") :
    similarity_ratio x y = similarity_ratio y x := by
  rcases h with rfl | rfl | rfl
  · rfl
  · unfold similarity_ratio
    rw [show ((("" : String) == "") || (y == "")) = true from by simp]
    rw [show ((y == "") || (("" : String) == "")) = true from by simp]
    rfl
  · unfold similarity_ratio
    rw [show ((x == "") || (("" : String) == "")) = true from by simp]
    rw [show ((("" : String) == "") || (x == "")) = true from by simp]
    rfl

/-- Witness for the amended C2 at `x = ""`, `y = "q"`. -/
theorem similarityRatio_symm_amended_witness :
    (("" : String) = "q" ∨ ("" : String) = "" ∨ ("q" : String) = "") ∧
      similarity_ratio "" "q" = similarity_ratio "q" "" :=
  ⟨Or.inr (Or.inl rfl), similarityRatio_symm_amended "" "q" (Or.inr (Or.inl rfl))⟩

/-- Claim C9: `address_match` is not reflexive.  A non-empty address
without six consecutive digits whose normalized tokens all have length at
most 3 scores `0.6 * similarity + 0.4 * 0 ≤ 60 < 70` against itself, so it
fails to match itself. -/
theorem addressMatch_not_reflexive (a : String) (ha : a ≠ "")
    (hpin : extract_pincode a = "")
    (htok : ∀ t ∈ pySplit (normalize_address a).data, t.length ≤ 3) :
    address_match a a = false := by
  have hsig : (pySplit (normalize_address a).data).filter
      (fun part => decide (3 < part.length)) = [] := by
    rw [List.filter_eq_nil_iff]
    intro t ht
    simpa using Nat.not_lt.mpr (htok t ht)
  unfold address_match
  rw [show ((a == "") || (a == "")) = false from by simp [ha]]
  simp only [Bool.false_eq_true, if_false]
  by_cases hna : normalize_address a = ""
  · have hsim : similarity_ratio (normalize_address a) (normalize_address a) = 0 := by
      rw [hna]
      rfl
    simp only [hpin, hsig, hsim]
    norm_num
  · have hsim : similarity_ratio (normalize_address a) (normalize_address a) = 100 :=
      ratio_self_100 _ hna
    simp only [hpin, hsig, hsim]
    norm_num

/-- Witness for C9 at the claim's own example `"abc def"`. -/
theorem addressMatch_not_reflexive_witness :
    ("abc def" : String) ≠ "" ∧ extract_pincode "abc def" = "" ∧
      (∀ t ∈ pySplit (normalize_address "abc def").data, t.length ≤ 3) ∧
      address_match "abc def" "abc def" = false :=
  ⟨by decide, by decide, by decide,
    addressMatch_not_reflexive "abc def" (by decide) (by decide) (by decide)⟩

end AadharVerify
